import Mathlib

/-!
Verification of the pig-latin translator (Rust crate `pig_latin`).

Strings are modelled as lists of Unicode scalar values (`List Char`), which
matches Rust's `str` viewed as a sequence of `char`s.  Byte indices, which the
source manipulates explicitly, are recovered through the UTF-8 size of each
scalar.  Functions that can panic in the source (`expect` / `unwrap`) are
modelled with `Option`, `none` standing for the panic.
-/

namespace PigLatin

/-- UTF-8 encoded size in bytes of a Unicode scalar value; mirrors Rust's
`char::len_utf8`. -/
def lenUtf8 (c : Char) : Nat :=
  if c.toNat < 0x80 then 1
  else if c.toNat < 0x800 then 2
  else if c.toNat < 0x10000 then 3
  else 4

/-- Byte length of a string, i.e. the sum of the UTF-8 sizes of its scalars;
mirrors Rust's `str::len`. -/
def utf8Len : List Char → Nat
  | [] => 0
  | c :: s => lenUtf8 c + utf8Len s

/-- Take the leading characters of `s` that fit in the first `n` bytes;
at a character boundary `n` this is the slice `s[..n]` of the source. -/
def takeBytes : List Char → Nat → List Char
  | _, 0 => []
  | [], _ => []
  | c :: s, n => if lenUtf8 c ≤ n then c :: takeBytes s (n - lenUtf8 c) else []

/-- Drop the leading characters of `s` covering the first `n` bytes;
at a character boundary `n` this is the slice `s[n..]` of the source. -/
def dropBytes : List Char → Nat → List Char
  | s, 0 => s
  | [], _ => []
  | c :: s, n => if lenUtf8 c ≤ n then dropBytes s (n - lenUtf8 c) else c :: s

/-- ASCII lower-casing of a single scalar; mirrors Rust's
`char::to_ascii_lowercase`. -/
def toAsciiLowercase (c : Char) : Char :=
  if 65 ≤ c.toNat ∧ c.toNat ≤ 90 then Char.ofNat (c.toNat + 32) else c

/-- ASCII punctuation test; mirrors Rust's `char::is_ascii_punctuation`
(the four ASCII ranges `!..\x2f`, `:..@`, `[..\x60` and `\x7b..~`). -/
def isAsciiPunctuation (c : Char) : Bool :=
  (0x21 ≤ c.toNat ∧ c.toNat ≤ 0x2F) ∨ (0x3A ≤ c.toNat ∧ c.toNat ≤ 0x40) ∨
  (0x5B ≤ c.toNat ∧ c.toNat ≤ 0x60) ∨ (0x7B ≤ c.toNat ∧ c.toNat ≤ 0x7E)

/-- Unicode White_Space property, the exact set used by Rust's
`char::is_whitespace`. -/
def isWhitespaceChar (c : Char) : Bool :=
  (0x9 ≤ c.toNat ∧ c.toNat ≤ 0xD) ∨ c.toNat = 0x20 ∨ c.toNat = 0x85 ∨
  c.toNat = 0xA0 ∨ c.toNat = 0x1680 ∨ (0x2000 ≤ c.toNat ∧ c.toNat ≤ 0x200A) ∨
  c.toNat = 0x2028 ∨ c.toNat = 0x2029 ∨ c.toNat = 0x202F ∨
  c.toNat = 0x205F ∨ c.toNat = 0x3000

/-- Separator test used by `translate`'s tokenizer:
`c.is_ascii_punctuation() || c.is_whitespace()`. -/
def isSep (c : Char) : Bool :=
  isAsciiPunctuation c || isWhitespaceChar c

/-- Unicode Lowercase property as used by Rust's `char::is_lowercase`.
Modelled from the Unicode tables restricted to ASCII plus the non-ASCII
scalars exercised in this development; other scalars are treated as
caseless, which is the only part of the table that matters here. -/
def isLowercaseChar (c : Char) : Bool :=
  (97 ≤ c.toNat ∧ c.toNat ≤ 122) ∨
  c = 'ß' ∨ c = 'é' ∨ c = 'æ' ∨ c = 'ﬁ'

/-- Unicode Uppercase property as used by Rust's `char::is_uppercase`,
modelled with the same restriction as `isLowercaseChar`. -/
def isUppercaseChar (c : Char) : Bool :=
  (65 ≤ c.toNat ∧ c.toNat ≤ 90) ∨ c = 'É' ∨ c = 'Æ'

/-- Full Unicode uppercase mapping (possibly several scalars) as used by
Rust's `char::to_uppercase`; same table restriction as `isLowercaseChar`,
all other scalars map to themselves. -/
def toUppercaseFull (c : Char) : List Char :=
  if 97 ≤ c.toNat ∧ c.toNat ≤ 122 then [Char.ofNat (c.toNat - 32)]
  else if c = 'ß' then ['S', 'S']
  else if c = 'ﬁ' then ['F', 'I']
  else if c = 'é' then ['É']
  else if c = 'æ' then ['Æ']
  else [c]

/-- Full Unicode lowercase mapping as used by Rust's `char::to_lowercase`;
same table restriction as `isLowercaseChar`. -/
def toLowercaseFull (c : Char) : List Char :=
  if 65 ≤ c.toNat ∧ c.toNat ≤ 90 then [Char.ofNat (c.toNat + 32)]
  else if c = 'É' then ['é']
  else if c = 'Æ' then ['æ']
  else [c]

/-- The three-way case classification from the source (`enum CharCase`);
`Eh` is the source's name for the indeterminate class. -/
inductive CharCase where
  | Lower
  | Upper
  | Eh
deriving DecidableEq

/-- Classification of one scalar (`CharCase::from_char` in the source). -/
def CharCase.fromChar (c : Char) : CharCase :=
  if isLowercaseChar c then CharCase.Lower
  else if isUppercaseChar c then CharCase.Upper
  else CharCase.Eh

/-- Vowel test from the source (`is_vowel`): ASCII-lowercase the scalar and
compare with the five ASCII vowels. -/
def is_vowel (c : Char) : Bool :=
  let l := toAsciiLowercase c
  l = 'a' ∨ l = 'e' ∨ l = 'i' ∨ l = 'o' ∨ l = 'u'

/-- Advance of the loop-carried casing state at the top of each iteration of
`apply_casing_like`: take the next scalar of `casing_of` if not yet exhausted,
record exhaustion otherwise, keeping the previous `target_case`. -/
def aclNext (cas : List Char) (exh : Bool) (target : CharCase) :
    List Char × Bool × CharCase :=
  if exh then (cas, exh, target)
  else
    match cas with
    | c :: cs => (cs, false, CharCase.fromChar c)
    | [] => (([] : List Char), true, target)

/-- Loop of `apply_casing_like` from the source.  `text` is the whole string
being re-cased (the loop slices it at byte indices), the first list argument
holds the characters still to visit, and the remaining parameters are the
loop-carried variables `casing_of_chars`, `exhausted`, `target_case`,
`text_byte_idx`, `last_edit` and `result`.  The `CharCase.Eh` conversion arm
is a `panic!` in the source and is unreachable under the guard. -/
def aclGo (text : List Char) :
    List Char → List Char → Bool → CharCase → Nat → Nat → List Char → List Char
  | [], _, _, _, _, _, result => result
  | tc :: rest, cas, exh, target, bIdx, lastEdit, result =>
    match aclNext cas exh target with
    | (cas', exh', target') =>
      if CharCase.fromChar tc ≠ target' ∧ target' ≠ CharCase.Eh then
        aclGo text rest cas' exh' target' (bIdx + lenUtf8 tc) (bIdx + lenUtf8 tc)
          (result ++
            (if lastEdit < bIdx then takeBytes (dropBytes text lastEdit) (bIdx - lastEdit)
             else []) ++
            (match target' with
             | CharCase.Upper => toUppercaseFull tc
             | CharCase.Lower => toLowercaseFull tc
             | CharCase.Eh => []))
      else if bIdx + 1 = utf8Len text then
        aclGo text rest cas' exh' target' (bIdx + lenUtf8 tc) lastEdit
          (result ++ takeBytes (dropBytes text lastEdit) (bIdx + 1 - lastEdit))
      else
        aclGo text rest cas' exh' target' (bIdx + lenUtf8 tc) lastEdit result

/-- Casing transfer from the source (`apply_casing_like`): re-case `text`
positionally after the per-scalar case pattern of `casing_of`. -/
def apply_casing_like (text casing_of : List Char) : List Char :=
  aclGo text text casing_of false CharCase.Eh 0 0 []

/-- First-scalar vowel test from the source (`starts_voweled`); the source
`expect`s a first character and panics on the empty string, modelled by
`none`. -/
def starts_voweled : List Char → Option Bool
  | [] => none
  | c :: _ => some (is_vowel c)

/-- Suffix step of the vowel-initial path (`translate_word_starts_voweled`). -/
def translate_word_starts_voweled (english_word : List Char) : List Char :=
  english_word ++ ['h', 'a', 'y']

/-- Byte-index scan of the leading consonant run: the loop of
`byte_idx_starting_consonants` before the qu adjustment, accumulating
`len_utf8` of each scalar until the first vowel. -/
def consonantScan : List Char → Nat
  | [] => 0
  | c :: s => if is_vowel c then 0 else lenUtf8 c + consonantScan s

/-- Byte index splitting the leading consonant run from the rest, including
the qu adjustment, from the source (`byte_idx_starting_consonants`).  The two
`unwrap`s of the source are modelled by `none`; the `&&` of the source
short-circuits, so the second `unwrap` only runs when the first scalar
ASCII-lowercases to `q`. -/
def byte_idx_starting_consonants (english_word : List Char) : Option Nat :=
  let cut := consonantScan english_word
  if utf8Len english_word > cut then
    match takeBytes english_word (cut + 1) with
    | [] => none
    | c1 :: rest =>
      if toAsciiLowercase c1 = 'q' then
        match rest with
        | [] => none
        | c2 :: _ =>
          if toAsciiLowercase c2 = 'u' then some (cut + 1) else some cut
      else some cut
  else some cut

/-- Single-word translation from the source (`translate_word`); `none`
models a panic (empty input, or an impossible `unwrap` failure). -/
def translate_word (english_word : List Char) : Option (List Char) :=
  match starts_voweled english_word with
  | none => none
  | some true => some (translate_word_starts_voweled english_word)
  | some false =>
    match byte_idx_starting_consonants english_word with
    | none => none
    | some cut =>
      some (apply_casing_like
        (dropBytes english_word cut ++ takeBytes english_word cut ++ ['a', 'y'])
        english_word)

/-- Byte ranges of the separator characters of the input, in order; mirrors
`english.match_indices(|c| c.is_ascii_punctuation() || c.is_whitespace())`
mapped to `(match_idx, match_idx + match_str.len())`.  `pos` is the byte
position of the first character of the remaining list. -/
def matchIndicesAux : List Char → Nat → List (Nat × Nat)
  | [], _ => []
  | c :: s, pos =>
    if isSep c then (pos, pos + lenUtf8 c) :: matchIndicesAux s (pos + lenUtf8 c)
    else matchIndicesAux s (pos + lenUtf8 c)

/-- The `substring_ranges_iter` of the source: `(0, false)`, then for every
separator character the two entries `(start, true)` and `(end, false)`, then
`(len, false)`. -/
def substringRanges (s : List Char) : List (Nat × Bool) :=
  (0, false) ::
    ((matchIndicesAux s 0).flatMap (fun p => [(p.1, true), (p.2, false)]) ++
      [(utf8Len s, false)])

/-- Main loop of `translate`: walk the range entries keeping the previous
index and flag, skip empty segments, translate word segments and copy
separator segments.  A `none` from `translate_word` (a panic in the source)
propagates. -/
def translateGo (s : List Char) :
    List (Nat × Bool) → Nat → Bool → List Char → Option (List Char)
  | [], _, _, acc => some acc
  | (idx, flag) :: rest, lastIdx, lastFlag, acc =>
    if lastIdx < idx then
      if lastFlag = false then
        match translate_word (takeBytes (dropBytes s lastIdx) (idx - lastIdx)) with
        | none => none
        | some tw => translateGo s rest idx flag (acc ++ tw)
      else translateGo s rest idx flag (acc ++ takeBytes (dropBytes s lastIdx) (idx - lastIdx))
    else translateGo s rest idx flag acc

/-- Whole-text translation from the source (`translate`). -/
def translate (s : List Char) : Option (List Char) :=
  translateGo s (substringRanges s) 0 false []

/-- Run-structured reformulation of the tokenizer loop: peel one separator
character, or one maximal word run, at a time.  `translate` is proved equal
to this function, and the tokenizer claims are read off this form. -/
def cleanTranslate : List Char → Option (List Char)
  | [] => some []
  | c :: t =>
    if isSep c then (cleanTranslate t).map (fun r => c :: r)
    else
      match translate_word (c :: t.takeWhile (fun d => isSep d == false)),
          cleanTranslate (t.dropWhile (fun d => isSep d == false)) with
      | some tw, some r => some (tw ++ r)
      | _, _ => none
termination_by s => s.length
decreasing_by
  · simp
  · simp only [List.length_cons]
    exact Nat.lt_succ_of_le (List.dropWhile_sublist _).length_le

/-- Accumulating helper of `runs`: `acc` holds (reversed) the characters of
the current run, which all share the separator flag `f`. -/
def runsAux : List Char → Bool → List Char → List (Bool × List Char)
  | [], f, acc => [(f, acc.reverse)]
  | c :: s, f, acc =>
    if isSep c == f then runsAux s f (c :: acc)
    else (f, acc.reverse) :: runsAux s (isSep c) [c]

/-- Maximal alternating runs of a string, each tagged with `true` when it is
a separator run and `false` when it is a word run. -/
def runs : List Char → List (Bool × List Char)
  | [] => []
  | c :: s => runsAux s (isSep c) [c]

/-- Relation between an input span and the corresponding output span of
`translate`: same separator flag, separator content copied verbatim, word
content mapped through `translate_word`. -/
def spanRel (a b : Bool × List Char) : Prop :=
  a.1 = b.1 ∧ (a.1 = true → a.2 = b.2) ∧
    (a.1 = false → translate_word a.2 = some b.2)

/-- The re-casing relation: `Recased l r` holds when `r` is obtained from `l`
by replacing each scalar, in order, by itself or by its full upper/lowercase
conversion.  The loop of `apply_casing_like` produces a re-casing of `text`
whenever the final flush fires, in particular whenever the last scalar of
`text` is a one-byte scalar. -/
inductive Recased : List Char → List Char → Prop where
  | nil : Recased [] []
  | raw (l r : List Char) (c : Char) : Recased l r → Recased (l ++ [c]) (r ++ [c])
  | up (l r : List Char) (c : Char) :
      Recased l r → Recased (l ++ [c]) (r ++ toUppercaseFull c)
  | low (l r : List Char) (c : Char) :
      Recased l r → Recased (l ++ [c]) (r ++ toLowercaseFull c)

example : translate_word ['f', 'i', 'r', 's', 't'] = some ['i', 'r', 's', 't', 'f', 'a', 'y'] := by decide
example : translate_word ['a', 'p', 'p', 'l', 'e'] = some ['a', 'p', 'p', 'l', 'e', 'h', 'a', 'y'] := by decide
example : translate_word ['q'] = some ['q', 'a', 'y'] := by decide
example : translate_word ['q', 'u'] = some ['q', 'u', 'a', 'y'] := by decide
example : translate_word ['Q', 'u', 'e', 'r', 'y'] = some ['E', 'r', 'y', 'q', 'u', 'a', 'y'] := by decide
example : translate_word ['q', 'U', 'e', 'R', 'y'] = some ['e', 'R', 'y', 'Q', 'u', 'a', 'y'] := by decide
example : translate_word ['Q', 'U', 'E', 'R', 'Y'] = some ['E', 'R', 'Y', 'Q', 'U', 'A', 'Y'] := by decide
example : translate_word ['s', 'q', 'u', 'i', 's', 'h'] = some ['u', 'i', 's', 'h', 's', 'q', 'a', 'y'] := by decide
example : translate_word ['ß', 'A'] = some ['a', 'S', 'S', 'A', 'Y'] := by decide
example : apply_casing_like ['é'] ['é'] = [] := by decide
example : apply_casing_like ['é'] [] = [] := by decide
example : apply_casing_like ['H', 'e', 'l', 'l', 'o'] [] = ['H', 'e', 'l', 'l', 'o'] := by decide
example : apply_casing_like ['ﬁ', 'r', 'e'] ['H', 'E', 'L', 'L', 'O'] = ['F', 'I', 'R', 'E'] := by decide
example : apply_casing_like ['S', 't', 'r', 'a', 'ß', 'e'] ['T', 'R', 'O', 'L', 'O', 'L', 'O'] = ['S', 'T', 'R', 'A', 'S', 'S', 'E'] := by decide
example : apply_casing_like ['f', 'O', 'O', 'b', 'a', 'r'] ['B', 'a', 'r', 'B', 'a', 'z'] = ['F', 'o', 'o', 'B', 'a', 'r'] := by decide
example : apply_casing_like ['A', 'b', 'C', 'd'] ['A', 'b'] = ['A', 'b', 'c', 'd'] := by decide
example : translate ['H', 'e', 'l', 'l', 'o', ' ', 'w', 'o', 'r', 'l', 'd', '!'] = some ['E', 'l', 'l', 'o', 'h', 'a', 'y', ' ', 'o', 'r', 'l', 'd', 'w', 'a', 'y', '!'] := by decide
example : translate [] = some [] := by decide

/-! Basic facts about scalar sizes and byte-indexed slicing. -/

theorem toNat_ofNat_lt {n : Nat} (h : n < 55296) : (Char.ofNat n).toNat = n := by
  have hv : n.isValidChar := Or.inl h
  simp only [Char.ofNat, dif_pos hv]
  rfl

theorem lenUtf8_pos (c : Char) : 1 ≤ lenUtf8 c := by
  unfold lenUtf8
  split
  · exact Nat.le_refl 1
  · split
    · omega
    · split <;> omega

theorem utf8Len_append (a b : List Char) : utf8Len (a ++ b) = utf8Len a + utf8Len b := by
  induction a with
  | nil => simp [utf8Len]
  | cons c a ih => simp [utf8Len, ih, Nat.add_assoc]

theorem utf8Len_pos {s : List Char} (h : s ≠ []) : 0 < utf8Len s := by
  match s, h with
  | c :: t, _ =>
    have := lenUtf8_pos c
    simp only [utf8Len]
    omega

theorem utf8Len_eq_zero {s : List Char} (h : utf8Len s = 0) : s = [] := by
  match s with
  | [] => rfl
  | c :: t =>
    have := lenUtf8_pos c
    simp only [utf8Len] at h
    omega

theorem dropBytes_zero (s : List Char) : dropBytes s 0 = s := by cases s <;> rfl

theorem takeBytes_zero (s : List Char) : takeBytes s 0 = [] := by cases s <;> rfl

theorem dropBytes_nil (n : Nat) : dropBytes [] n = [] := by cases n <;> rfl

theorem takeBytes_nil (n : Nat) : takeBytes [] n = [] := by cases n <;> rfl

theorem dropBytes_succ (c : Char) (s : List Char) (n : Nat) :
    dropBytes (c :: s) (n + 1) =
      if lenUtf8 c ≤ n + 1 then dropBytes s (n + 1 - lenUtf8 c) else c :: s := rfl

theorem takeBytes_succ (c : Char) (s : List Char) (n : Nat) :
    takeBytes (c :: s) (n + 1) =
      if lenUtf8 c ≤ n + 1 then c :: takeBytes s (n + 1 - lenUtf8 c) else [] := rfl

theorem dropBytes_cons_le {c : Char} {n : Nat} (s : List Char) (h : lenUtf8 c ≤ n) :
    dropBytes (c :: s) n = dropBytes s (n - lenUtf8 c) := by
  have h1 := lenUtf8_pos c
  obtain ⟨m, rfl⟩ : ∃ m, n = m + 1 := ⟨n - 1, by omega⟩
  rw [dropBytes_succ, if_pos h]

theorem takeBytes_cons_le {c : Char} {n : Nat} (s : List Char) (h : lenUtf8 c ≤ n) :
    takeBytes (c :: s) n = c :: takeBytes s (n - lenUtf8 c) := by
  have h1 := lenUtf8_pos c
  obtain ⟨m, rfl⟩ : ∃ m, n = m + 1 := ⟨n - 1, by omega⟩
  rw [takeBytes_succ, if_pos h]

theorem takeBytes_append_dropBytes (s : List Char) (n : Nat) :
    takeBytes s n ++ dropBytes s n = s := by
  induction s generalizing n with
  | nil => rw [takeBytes_nil, dropBytes_nil]; rfl
  | cons c s ih =>
    cases n with
    | zero => rw [takeBytes_zero, dropBytes_zero]; rfl
    | succ m =>
      rw [takeBytes_succ, dropBytes_succ]
      by_cases h : lenUtf8 c ≤ m + 1
      · rw [if_pos h, if_pos h]
        simp [ih]
      · rw [if_neg h, if_neg h]
        rfl

theorem dropBytes_append_add (a b : List Char) (n : Nat) :
    dropBytes (a ++ b) (utf8Len a + n) = dropBytes b n := by
  induction a with
  | nil => simp only [utf8Len, List.nil_append, Nat.zero_add]
  | cons c a ih =>
    have h : lenUtf8 c ≤ lenUtf8 c + utf8Len a + n := by omega
    simp only [List.cons_append, utf8Len]
    rw [Nat.add_assoc, dropBytes_cons_le _ (by omega)]
    simpa using ih

theorem dropBytes_append (a b : List Char) : dropBytes (a ++ b) (utf8Len a) = b := by
  have := dropBytes_append_add a b 0
  simpa [dropBytes_zero] using this

theorem takeBytes_append (a b : List Char) : takeBytes (a ++ b) (utf8Len a) = a := by
  induction a with
  | nil => simp only [utf8Len, List.nil_append, takeBytes_zero]
  | cons c a ih =>
    simp only [List.cons_append, utf8Len]
    rw [takeBytes_cons_le _ (by omega)]
    simpa using ih

theorem takeBytes_utf8Len (s : List Char) : takeBytes s (utf8Len s) = s := by
  have := takeBytes_append s []
  simpa using this

theorem length_dropWhile_le (p : Char → Bool) (l : List Char) :
    (l.dropWhile p).length ≤ l.length := by
  induction l with
  | nil => simp
  | cons c t ih =>
    by_cases h : p c
    · rw [List.dropWhile_cons_of_pos h]
      exact Nat.le_trans ih (by simp)
    · rw [List.dropWhile_cons_of_neg h]

theorem takeWhile_of_dropWhile_nil {p : Char → Bool} {l : List Char}
    (h : l.dropWhile p = []) : l.takeWhile p = l := by
  have := List.takeWhile_append_dropWhile p l
  rw [h] at this
  simpa using this

/-! Structure of the tokenizer: relating the byte-indexed loop of `translate`
to a run-at-a-time recursion. -/

theorem matchIndicesAux_shift (s : List Char) (p : Nat) :
    ∀ q, matchIndicesAux s (p + q) =
      (matchIndicesAux s q).map (fun r => (p + r.1, p + r.2)) := by
  induction s with
  | nil => intro q; rfl
  | cons c t ih =>
    intro q
    by_cases hc : isSep c
    · simp only [matchIndicesAux, hc, if_true, List.map_cons]
      rw [Nat.add_assoc, ih (q + lenUtf8 c)]
    · simp only [matchIndicesAux, hc, Bool.false_eq_true, if_false]
      rw [Nat.add_assoc, ih (q + lenUtf8 c)]

theorem matchIndicesAux_sepfree_append (a b : List Char)
    (h : ∀ c ∈ a, isSep c = false) :
    ∀ p, matchIndicesAux (a ++ b) p = matchIndicesAux b (p + utf8Len a) := by
  induction a with
  | nil => intro p; simp [utf8Len]
  | cons c a ih =>
    intro p
    have hc : isSep c = false := h c (by simp)
    simp only [List.cons_append, matchIndicesAux, hc, Bool.false_eq_true, if_false,
      List.append_eq]
    rw [ih (fun x hx => h x (by simp [hx])) (p + lenUtf8 c)]
    simp only [utf8Len]
    congr 1
    omega

theorem flatE_shift (l : List (Nat × Nat)) (p : Nat) :
    (l.map (fun r => (p + r.1, p + r.2))).flatMap
        (fun r => [(r.1, true), (r.2, false)]) =
      (l.flatMap (fun r => [(r.1, true), (r.2, false)])).map
        (fun e => (p + e.1, e.2)) := by
  induction l with
  | nil => rfl
  | cons r l ih => simp [ih]

theorem translateGo_acc (s : List Char) (es : List (Nat × Bool)) :
    ∀ (lastIdx : Nat) (lastFlag : Bool) (acc : List Char),
    translateGo s es lastIdx lastFlag acc =
      (translateGo s es lastIdx lastFlag []).map (fun r => acc ++ r) := by
  induction es with
  | nil => intro l f acc; simp [translateGo]
  | cons e rest ih =>
    intro l f acc
    obtain ⟨idx, flag⟩ := e
    simp only [translateGo]
    by_cases h1 : l < idx
    · rw [if_pos h1, if_pos h1]
      by_cases h2 : f = false
      · rw [if_pos h2, if_pos h2]
        cases htw : translate_word (takeBytes (dropBytes s l) (idx - l)) with
        | none => rfl
        | some tw =>
          show translateGo s rest idx flag (acc ++ tw) =
            Option.map (fun r => acc ++ r) (translateGo s rest idx flag ([] ++ tw))
          rw [ih idx flag (acc ++ tw), ih idx flag ([] ++ tw)]
          cases translateGo s rest idx flag [] <;> simp
      · rw [if_neg h2, if_neg h2]
        rw [ih idx flag (acc ++ _), ih idx flag ([] ++ _)]
        cases translateGo s rest idx flag [] <;> simp
    · rw [if_neg h1, if_neg h1]
      exact ih idx flag acc

theorem translateGo_shift (u t : List Char) (es : List (Nat × Bool)) :
    ∀ (a : Nat) (flag : Bool) (acc : List Char),
    translateGo (u ++ t) (es.map (fun e => (utf8Len u + e.1, e.2)))
        (utf8Len u + a) flag acc =
      translateGo t es a flag acc := by
  induction es with
  | nil => intro a flag acc; rfl
  | cons e rest ih =>
    intro a flag acc
    obtain ⟨idx, eflag⟩ := e
    simp only [List.map_cons, translateGo]
    have hdrop : dropBytes (u ++ t) (utf8Len u + a) = dropBytes t a :=
      dropBytes_append_add u t a
    have hsub : utf8Len u + idx - (utf8Len u + a) = idx - a := by omega
    by_cases h1 : a < idx
    · rw [if_pos (by omega), if_pos h1, hdrop, hsub]
      by_cases h2 : flag = false
      · rw [if_pos h2, if_pos h2]
        cases translate_word (takeBytes (dropBytes t a) (idx - a)) with
        | none => rfl
        | some tw =>
          show translateGo (u ++ t) (rest.map (fun e => (utf8Len u + e.1, e.2)))
              (utf8Len u + idx) eflag (acc ++ tw) = translateGo t rest idx eflag (acc ++ tw)
          exact ih idx eflag (acc ++ tw)
      · rw [if_neg h2, if_neg h2]
        exact ih idx eflag _
    · rw [if_neg (by omega), if_neg h1]
      exact ih idx eflag acc

theorem translate_eq_go (s : List Char) :
    translate s =
      translateGo s
        ((matchIndicesAux s 0).flatMap (fun p => [(p.1, true), (p.2, false)]) ++
          [(utf8Len s, false)])
        0 false [] := by
  unfold translate substringRanges
  simp only [translateGo]
  rw [if_neg (by omega)]

theorem dropWhile_head_beq {t : List Char} {f : Bool} {d : Char} {r : List Char}
    (h : t.dropWhile (fun x => isSep x == f) = d :: r) : isSep d = !f := by
  induction t with
  | nil => simp at h
  | cons c t ih =>
    rw [List.dropWhile_cons] at h
    by_cases hc : (isSep c == f) = true
    · rw [if_pos hc] at h
      exact ih h
    · rw [if_neg hc] at h
      obtain ⟨rfl, -⟩ := List.cons.inj h
      cases hsep : isSep c <;> cases f <;> simp_all

theorem mem_takeWhile_sep {t : List Char} {f : Bool} :
    ∀ x ∈ t.takeWhile (fun d => isSep d == f), isSep x = f := by
  intro x hx
  have := List.mem_takeWhile_imp hx
  simpa using this

theorem matchIndicesAux_sepfree (s : List Char) (h : ∀ c ∈ s, isSep c = false) :
    ∀ p, matchIndicesAux s p = [] := by
  induction s with
  | nil => intro p; rfl
  | cons c t ih =>
    intro p
    have hc : isSep c = false := h c (by simp)
    simp only [matchIndicesAux, hc, Bool.false_eq_true, if_false]
    exact ih (fun x hx => h x (by simp [hx])) _

theorem translateGo_skip (s : List Char) (es : List (Nat × Bool)) (idx' : Nat)
    (flag' : Bool) (lastIdx : Nat) (lastFlag : Bool) (acc : List Char)
    (h : ¬ lastIdx < idx') :
    translateGo s ((idx', flag') :: es) lastIdx lastFlag acc =
      translateGo s es idx' flag' acc := by
  simp only [translateGo]
  rw [if_neg h]

theorem translateGo_word (s : List Char) (es : List (Nat × Bool)) (idx' : Nat)
    (flag' : Bool) (lastIdx : Nat) (acc : List Char) (h : lastIdx < idx') :
    translateGo s ((idx', flag') :: es) lastIdx false acc =
      (translate_word (takeBytes (dropBytes s lastIdx) (idx' - lastIdx))).bind
        (fun tw => translateGo s es idx' flag' (acc ++ tw)) := by
  simp only [translateGo]
  rw [if_pos h, if_pos trivial]
  cases translate_word (takeBytes (dropBytes s lastIdx) (idx' - lastIdx)) <;> rfl

theorem translateGo_sep (s : List Char) (es : List (Nat × Bool)) (idx' : Nat)
    (flag' : Bool) (lastIdx : Nat) (acc : List Char) (h : lastIdx < idx') :
    translateGo s ((idx', flag') :: es) lastIdx true acc =
      translateGo s es idx' flag'
        (acc ++ takeBytes (dropBytes s lastIdx) (idx' - lastIdx)) := by
  simp only [translateGo]
  rw [if_pos h, if_neg (by simp)]

theorem translate_sep_cons (c : Char) (t : List Char) (hc : isSep c = true) :
    translate (c :: t) = (translate t).map (fun r => c :: r) := by
  rw [translate_eq_go (c :: t), translate_eq_go t]
  have h0 : matchIndicesAux t (lenUtf8 c) =
      (matchIndicesAux t 0).map (fun r => (lenUtf8 c + r.1, lenUtf8 c + r.2)) := by
    have := matchIndicesAux_shift t (lenUtf8 c) 0
    simpa using this
  have hmi : matchIndicesAux (c :: t) 0 =
      (0, lenUtf8 c) ::
        (matchIndicesAux t 0).map (fun r => (lenUtf8 c + r.1, lenUtf8 c + r.2)) := by
    simp only [matchIndicesAux, hc, if_true, Nat.zero_add]
    rw [h0]
  rw [hmi]
  simp only [List.flatMap_cons, flatE_shift]
  have hsingle : [(utf8Len (c :: t), (false : Bool))] =
      List.map (fun e : Nat × Bool => (lenUtf8 c + e.1, e.2)) [(utf8Len t, false)] := by
    simp [utf8Len]
  rw [hsingle]
  simp only [List.cons_append, List.nil_append]
  rw [← List.map_append]
  rw [translateGo_skip _ _ _ _ _ _ _ (by omega)]
  rw [translateGo_sep _ _ _ _ _ _ (by exact lenUtf8_pos c)]
  have htk : takeBytes (c :: t) (lenUtf8 c) = [c] := by
    have := takeBytes_append [c] t
    simpa [utf8Len] using this
  simp only [dropBytes_zero, Nat.sub_zero, List.nil_append, htk]
  have hshift := translateGo_shift [c] t
    ((matchIndicesAux t 0).flatMap (fun p => [(p.1, true), (p.2, false)]) ++
      [(utf8Len t, false)]) 0 false [c]
  simp only [List.singleton_append, utf8Len, Nat.add_zero] at hshift
  rw [hshift, translateGo_acc]
  rfl

theorem translate_wordrun_nil (w : List Char) (hne : w ≠ [])
    (hsf : ∀ x ∈ w, isSep x = false) :
    translate w = translate_word w := by
  rw [translate_eq_go w]
  rw [matchIndicesAux_sepfree w hsf 0]
  simp only [List.flatMap_nil, List.nil_append]
  rw [translateGo_word _ _ _ _ _ _ (utf8Len_pos hne)]
  simp only [dropBytes_zero, Nat.sub_zero, takeBytes_utf8Len]
  cases htw : translate_word w with
  | none => rfl
  | some tw => simp [translateGo, Option.some_bind]

theorem translate_wordrun_cons (w : List Char) (d : Char) (b' : List Char)
    (hne : w ≠ []) (hsf : ∀ x ∈ w, isSep x = false) (hd : isSep d = true) :
    translate (w ++ d :: b') =
      (translate_word w).bind
        (fun tw => (translate b').map (fun r => tw ++ d :: r)) := by
  rw [translate_eq_go (w ++ d :: b'), translate_eq_go b']
  have hmi1 : matchIndicesAux (w ++ d :: b') 0 = matchIndicesAux (d :: b') (utf8Len w) := by
    have := matchIndicesAux_sepfree_append w (d :: b') hsf 0
    simpa using this
  have hmi2 : matchIndicesAux (d :: b') (utf8Len w) =
      (utf8Len w, utf8Len w + lenUtf8 d) ::
        (matchIndicesAux b' 0).map
          (fun r => (utf8Len w + lenUtf8 d + r.1, utf8Len w + lenUtf8 d + r.2)) := by
    simp only [matchIndicesAux, hd, if_true]
    congr 1
    have := matchIndicesAux_shift b' (utf8Len w + lenUtf8 d) 0
    simpa using this
  rw [hmi1, hmi2]
  simp only [List.flatMap_cons, flatE_shift]
  have hL : utf8Len (w ++ d :: b') = utf8Len w + lenUtf8 d + utf8Len b' := by
    rw [utf8Len_append]
    simp only [utf8Len]
    omega
  rw [hL]
  have hsingle : [(utf8Len w + lenUtf8 d + utf8Len b', (false : Bool))] =
      List.map (fun e : Nat × Bool => (utf8Len w + lenUtf8 d + e.1, e.2))
        [(utf8Len b', false)] := by
    simp
  rw [hsingle]
  simp only [List.cons_append, List.nil_append]
  rw [← List.map_append]
  rw [translateGo_word _ _ _ _ _ _ (utf8Len_pos hne)]
  simp only [dropBytes_zero, Nat.sub_zero]
  rw [takeBytes_append w (d :: b')]
  cases htw : translate_word w with
  | none => rfl
  | some tw =>
    simp only [Option.some_bind, List.nil_append]
    have hlt : utf8Len w < utf8Len w + lenUtf8 d := by
      have := lenUtf8_pos d
      omega
    rw [translateGo_sep _ _ _ _ _ _ hlt]
    rw [dropBytes_append w (d :: b')]
    have hsub : utf8Len w + lenUtf8 d - utf8Len w = lenUtf8 d := by omega
    rw [hsub]
    have htk : takeBytes (d :: b') (lenUtf8 d) = [d] := by
      have := takeBytes_append [d] b'
      simpa [utf8Len] using this
    rw [htk]
    have hshift := translateGo_shift (w ++ [d]) b'
      ((matchIndicesAux b' 0).flatMap (fun p => [(p.1, true), (p.2, false)]) ++
        [(utf8Len b', false)]) 0 false (tw ++ [d])
    simp only [List.append_assoc, List.singleton_append, utf8Len_append, utf8Len,
      Nat.add_zero] at hshift
    rw [hshift, translateGo_acc]
    cases translateGo b'
        ((matchIndicesAux b' 0).flatMap (fun p => [(p.1, true), (p.2, false)]) ++
          [(utf8Len b', false)]) 0 false [] with
    | none => rfl
    | some r => simp

theorem translate_eq_cleanTranslate (s : List Char) : translate s = cleanTranslate s := by
  suffices h : ∀ (n : Nat) (u : List Char), u.length ≤ n → translate u = cleanTranslate u by
    exact h s.length s (Nat.le_refl _)
  intro n
  induction n with
  | zero =>
    intro u hu
    have hnil : u = [] := List.eq_nil_of_length_eq_zero (Nat.le_zero.mp hu)
    subst hnil
    show translate [] = cleanTranslate []
    rw [show translate [] = some [] from by decide]
    simp [cleanTranslate]
  | succ n ih =>
    intro u hu
    match u with
    | [] =>
      show translate [] = cleanTranslate []
      rw [show translate [] = some [] from by decide]
      simp [cleanTranslate]
    | c :: t =>
      have hlen : t.length ≤ n := by
        simp only [List.length_cons] at hu
        omega
      by_cases hc : isSep c
      · rw [translate_sep_cons c t hc, ih t hlen]
        simp only [cleanTranslate]
        rw [if_pos hc]
      · have hcf : isSep c = false := by simpa using hc
        cases hbe : t.dropWhile (fun x => isSep x == false) with
        | nil =>
          have hwt : t.takeWhile (fun x => isSep x == false) = t :=
            takeWhile_of_dropWhile_nil hbe
          have hsf : ∀ x ∈ c :: t, isSep x = false := by
            intro x hx
            rcases List.mem_cons.mp hx with rfl | hx
            · exact hcf
            · rw [← hwt] at hx
              exact mem_takeWhile_sep x hx
          rw [translate_wordrun_nil (c :: t) (by simp) hsf]
          simp only [cleanTranslate]
          rw [if_neg hc, hwt, hbe]
          simp only [cleanTranslate]
          cases translate_word (c :: t) with
          | none => rfl
          | some tw => simp
        | cons d b' =>
          have hd : isSep d = true := by simpa using dropWhile_head_beq hbe
          have hsf : ∀ x ∈ c :: t.takeWhile (fun x => isSep x == false),
              isSep x = false := by
            intro x hx
            rcases List.mem_cons.mp hx with rfl | hx
            · exact hcf
            · exact mem_takeWhile_sep x hx
          have h1 := List.takeWhile_append_dropWhile (fun x => isSep x == false) t
          have hdecomp : c :: t =
              (c :: t.takeWhile (fun x => isSep x == false)) ++ d :: b' := by
            rw [List.cons_append, ← hbe, h1]
          have hlb : b'.length ≤ n := by
            have h2 := length_dropWhile_le (fun x => isSep x == false) t
            rw [hbe] at h2
            simp only [List.length_cons] at h2
            omega
          conv_lhs => rw [hdecomp]
          rw [translate_wordrun_cons _ d b' (by simp) hsf hd, ih b' hlb]
          simp only [cleanTranslate]
          rw [if_neg hc, hbe]
          simp only [cleanTranslate]
          rw [if_pos hd]
          cases translate_word (c :: t.takeWhile (fun x => isSep x == false)) with
          | none => rfl
          | some tw =>
            cases cleanTranslate b' with
            | none => rfl
            | some r => simp

/-! Decomposition of a string into maximal alternating separator and word
runs, used to state the span-preservation claims. -/

theorem runsAux_eq (t : List Char) : ∀ (f : Bool) (acc : List Char),
    runsAux t f acc =
      (f, acc.reverse ++ t.takeWhile (fun d => isSep d == f)) ::
        runs (t.dropWhile (fun d => isSep d == f)) := by
  induction t with
  | nil => intro f acc; simp [runsAux, runs]
  | cons c t ih =>
    intro f acc
    by_cases hc : (isSep c == f) = true
    · simp only [runsAux, hc, if_true, List.takeWhile_cons, List.dropWhile_cons, ih]
      simp
    · simp only [runsAux, hc, if_false, List.takeWhile_cons, List.dropWhile_cons]
      simp [runs]

theorem runs_cons (c : Char) (t : List Char) :
    runs (c :: t) =
      (isSep c, c :: t.takeWhile (fun d => isSep d == isSep c)) ::
        runs (t.dropWhile (fun d => isSep d == isSep c)) := by
  show runsAux t (isSep c) [c] = _
  rw [runsAux_eq]
  simp

theorem takeWhile_append_sat {p : Char → Bool} {a b : List Char}
    (ha : ∀ x ∈ a, p x = true)
    (hb : b = [] ∨ ∃ d r, b = d :: r ∧ p d = false) :
    (a ++ b).takeWhile p = a ∧ (a ++ b).dropWhile p = b := by
  induction a with
  | nil =>
    simp only [List.nil_append]
    rcases hb with rfl | ⟨d, r, rfl, hd⟩
    · simp
    · rw [List.takeWhile_cons, List.dropWhile_cons, hd]
      simp
  | cons c a ih =>
    have hc : p c = true := ha c (by simp)
    obtain ⟨h1, h2⟩ := ih (fun x hx => ha x (by simp [hx]))
    constructor
    · rw [List.cons_append, List.takeWhile_cons, hc]
      simp [h1]
    · rw [List.cons_append, List.dropWhile_cons, hc]
      simpa using h2

theorem runs_append_uniform {f : Bool} {a b : List Char} (hne : a ≠ [])
    (ha : ∀ x ∈ a, isSep x = f)
    (hb : b = [] ∨ ∃ d r, b = d :: r ∧ isSep d = (!f)) :
    runs (a ++ b) = (f, a) :: runs b := by
  match a, hne with
  | c :: a', _ =>
    have hc : isSep c = f := ha c (by simp)
    rw [List.cons_append, runs_cons, hc]
    have hsat : ∀ x ∈ a', (fun d => isSep d == f) x = true := by
      intro x hx
      simp [ha x (by simp [hx])]
    have hb' : b = [] ∨ ∃ d r, b = d :: r ∧ (fun d => isSep d == f) d = false := by
      rcases hb with rfl | ⟨d, r, rfl, hd⟩
      · exact Or.inl rfl
      · refine Or.inr ⟨d, r, rfl, ?_⟩
        cases f <;> simp_all
    obtain ⟨h1, h2⟩ := takeWhile_append_sat hsat hb'
    rw [h1, h2]

theorem runs_nil_iff {s : List Char} : runs s = [] ↔ s = [] := by
  constructor
  · intro h
    match s with
    | [] => rfl
    | c :: t => rw [runs_cons] at h; cases h
  · intro h; subst h; rfl

theorem runs_head_flag {s : List Char} {g : Bool} {l : List Char}
    {rest : List (Bool × List Char)} (h : runs s = (g, l) :: rest) :
    ∃ c t, s = c :: t ∧ isSep c = g := by
  match s with
  | [] => cases h
  | c :: t =>
    rw [runs_cons] at h
    have h1 := (List.cons.inj h).1
    rw [Prod.mk.injEq] at h1
    exact ⟨c, t, rfl, h1.1⟩

/-! The consonant scan: boundaries and totality of the word transformer. -/

theorem is_vowel_toNat {c : Char} (h : is_vowel c = true) : c.toNat < 128 := by
  unfold is_vowel toAsciiLowercase at h
  by_cases hr : 65 ≤ c.toNat ∧ c.toNat ≤ 90
  · omega
  · rw [if_neg hr] at h
    simp only [decide_eq_true_eq] at h
    rcases h with rfl | rfl | rfl | rfl | rfl <;> decide

theorem is_vowel_lenUtf8 {c : Char} (h : is_vowel c = true) : lenUtf8 c = 1 := by
  have := is_vowel_toNat h
  unfold lenUtf8
  rw [if_pos (by omega)]

theorem is_vowel_ne_q {c : Char} (hv : is_vowel c = true)
    (hq : toAsciiLowercase c = 'q') : False := by
  unfold is_vowel at hv
  rw [hq] at hv
  simp at hv

theorem dropWhile_head_not {p : Char → Bool} :
    ∀ {t : List Char} {d : Char} {r : List Char},
      t.dropWhile p = d :: r → p d = false := by
  intro t
  induction t with
  | nil => intro d r h; cases h
  | cons c t ih =>
    intro d r h
    rw [List.dropWhile_cons] at h
    by_cases hc : p c = true
    · rw [if_pos hc] at h
      exact ih h
    · rw [if_neg hc] at h
      obtain ⟨rfl, -⟩ := List.cons.inj h
      simpa using hc

theorem consonantScan_eq (w : List Char) :
    consonantScan w = utf8Len (w.takeWhile (fun c => !(is_vowel c))) := by
  induction w with
  | nil => rfl
  | cons c t ih =>
    by_cases hv : is_vowel c
    · simp [consonantScan, hv, List.takeWhile_cons, utf8Len]
    · simp [consonantScan, hv, List.takeWhile_cons, utf8Len, ih]

theorem takeWhile_eq_take (p : Char → Bool) (w : List Char) :
    w.takeWhile p = w.take ((w.takeWhile p).length) :=
  List.prefix_iff_eq_take.mp (List.takeWhile_prefix p)

theorem consonantScan_boundary (w : List Char) :
    ∃ m, consonantScan w = utf8Len (w.take m) := by
  refine ⟨(w.takeWhile (fun c => !(is_vowel c))).length, ?_⟩
  rw [consonantScan_eq, ← takeWhile_eq_take]

theorem consonantScan_split (w : List Char) (h : consonantScan w < utf8Len w) :
    ∃ d dr, w = w.takeWhile (fun c => !(is_vowel c)) ++ d :: dr ∧
      is_vowel d = true ∧ lenUtf8 d = 1 := by
  cases hdw : w.dropWhile (fun c => !(is_vowel c)) with
  | nil =>
    exfalso
    have := takeWhile_of_dropWhile_nil hdw
    rw [consonantScan_eq, this] at h
    omega
  | cons d dr =>
    have hd : is_vowel d = true := by
      have := dropWhile_head_not hdw
      simpa using this
    refine ⟨d, dr, ?_, hd, is_vowel_lenUtf8 hd⟩
    rw [← hdw, List.takeWhile_append_dropWhile]

theorem byte_idx_spec (w : List Char) :
    ∃ k, byte_idx_starting_consonants w = some k ∧ ∃ m, k = utf8Len (w.take m) := by
  unfold byte_idx_starting_consonants
  by_cases hlt : utf8Len w > consonantScan w
  · rw [if_pos hlt]
    obtain ⟨d, dr, hdecomp, hd, hd1⟩ := consonantScan_split w hlt
    set A := w.takeWhile (fun c => !(is_vowel c)) with hA
    have hscan : consonantScan w = utf8Len A := by
      rw [consonantScan_eq]
    have htb : takeBytes w (consonantScan w + 1) = A ++ [d] := by
      rw [hscan, ← hd1, hdecomp]
      rw [show A ++ d :: dr = (A ++ [d]) ++ dr from by simp]
      have h2 := takeBytes_append (A ++ [d]) dr
      rw [utf8Len_append] at h2
      simpa [utf8Len] using h2
    have hbd1 : ∃ m, consonantScan w + 1 = utf8Len (w.take m) := by
      refine ⟨A.length + 1, ?_⟩
      have htake : w.take (A.length + 1) = A ++ [d] := by
        rw [hdecomp, show A ++ d :: dr = (A ++ [d]) ++ dr from by simp]
        have h3 := List.take_left (A ++ [d]) dr
        simpa using h3
      rw [htake, hscan, utf8Len_append]
      simp [utf8Len, hd1]
    cases hm : takeBytes w (consonantScan w + 1) with
    | nil =>
      exfalso
      rw [htb] at hm
      simp at hm
    | cons c1 rest =>
      dsimp only
      by_cases hq : toAsciiLowercase c1 = 'q'
      · rw [if_pos hq]
        cases hr : rest with
        | nil =>
          exfalso
          subst hr
          rw [htb] at hm
          have hlen1 : A.length + 1 = 1 := by
            have := congrArg List.length hm
            simpa using this
          have htw0 : A = [] := List.eq_nil_of_length_eq_zero (by omega)
          rw [htw0] at hm
          simp at hm
          rw [← hm] at hq
          exact is_vowel_ne_q hd hq
        | cons c2 rest2 =>
          dsimp only
          by_cases hu : toAsciiLowercase c2 = 'u'
          · rw [if_pos hu]
            exact ⟨_, rfl, hbd1⟩
          · rw [if_neg hu]
            exact ⟨_, rfl, consonantScan_boundary w⟩
      · rw [if_neg hq]
        exact ⟨_, rfl, consonantScan_boundary w⟩
  · rw [if_neg hlt]
    exact ⟨_, rfl, consonantScan_boundary w⟩

theorem translate_word_some (c : Char) (t : List Char) :
    ∃ r, translate_word (c :: t) = some r := by
  unfold translate_word
  by_cases hv : is_vowel c
  · simp [starts_voweled, hv]
  · have hvf : is_vowel c = false := by simpa using hv
    simp only [starts_voweled, hvf]
    obtain ⟨k, hk, -⟩ := byte_idx_spec (c :: t)
    rw [hk]
    exact ⟨_, rfl⟩

/-! Per-scalar facts about the modelled Unicode case conversions. -/

theorem toUppercaseFull_ne_nil (c : Char) : toUppercaseFull c ≠ [] := by
  unfold toUppercaseFull
  split_ifs <;> simp

theorem toLowercaseFull_ne_nil (c : Char) : toLowercaseFull c ≠ [] := by
  unfold toLowercaseFull
  split_ifs <;> simp

theorem toUppercaseFull_sepfree {c : Char} (hc : isSep c = false) :
    ∀ y ∈ toUppercaseFull c, isSep y = false := by
  unfold toUppercaseFull
  split_ifs with h1 h2 h3 h4 h5
  · intro y hy
    simp only [List.mem_singleton] at hy
    subst hy
    have ht : (Char.ofNat (c.toNat - 32)).toNat = c.toNat - 32 :=
      toNat_ofNat_lt (by omega)
    unfold isSep isAsciiPunctuation isWhitespaceChar
    simp only [Bool.or_eq_false_iff, decide_eq_false_iff_not, ht]
    omega
  · intro y hy
    simp only [List.mem_cons, List.not_mem_nil, or_false] at hy
    rcases hy with rfl | rfl <;> decide
  · intro y hy
    simp only [List.mem_cons, List.not_mem_nil, or_false] at hy
    rcases hy with rfl | rfl <;> decide
  · intro y hy
    simp only [List.mem_singleton] at hy
    subst hy
    decide
  · intro y hy
    simp only [List.mem_singleton] at hy
    subst hy
    decide
  · intro y hy
    simp only [List.mem_singleton] at hy
    subst hy
    exact hc

theorem toLowercaseFull_sepfree {c : Char} (hc : isSep c = false) :
    ∀ y ∈ toLowercaseFull c, isSep y = false := by
  unfold toLowercaseFull
  split_ifs with h1 h2 h3
  · intro y hy
    simp only [List.mem_singleton] at hy
    subst hy
    have ht : (Char.ofNat (c.toNat + 32)).toNat = c.toNat + 32 :=
      toNat_ofNat_lt (by omega)
    unfold isSep isAsciiPunctuation isWhitespaceChar
    simp only [Bool.or_eq_false_iff, decide_eq_false_iff_not, ht]
    omega
  · intro y hy
    simp only [List.mem_singleton] at hy
    subst hy
    decide
  · intro y hy
    simp only [List.mem_singleton] at hy
    subst hy
    decide
  · intro y hy
    simp only [List.mem_singleton] at hy
    subst hy
    exact hc

theorem toUppercaseFull_ascii_map {c : Char} (hc : c.toNat < 128) :
    (toUppercaseFull c).map toAsciiLowercase = [toAsciiLowercase c] := by
  unfold toUppercaseFull
  split_ifs with h1 h2 h3 h4 h5
  · have ht : (Char.ofNat (c.toNat - 32)).toNat = c.toNat - 32 :=
      toNat_ofNat_lt (by omega)
    simp only [List.map_cons, List.map_nil]
    congr 1
    rw [show toAsciiLowercase (Char.ofNat (c.toNat - 32)) =
        Char.ofNat ((Char.ofNat (c.toNat - 32)).toNat + 32) from by
      unfold toAsciiLowercase
      rw [if_pos (by rw [ht]; omega)]]
    rw [show toAsciiLowercase c = c from by
      unfold toAsciiLowercase
      rw [if_neg (by omega)]]
    rw [ht, show c.toNat - 32 + 32 = c.toNat from by omega, Char.ofNat_toNat]
  · subst h2; exact absurd hc (by decide)
  · subst h3; exact absurd hc (by decide)
  · subst h4; exact absurd hc (by decide)
  · subst h5; exact absurd hc (by decide)
  · simp

theorem toLowercaseFull_ascii_map {c : Char} (hc : c.toNat < 128) :
    (toLowercaseFull c).map toAsciiLowercase = [toAsciiLowercase c] := by
  unfold toLowercaseFull
  split_ifs with h1 h2 h3
  · have ht : (Char.ofNat (c.toNat + 32)).toNat = c.toNat + 32 :=
      toNat_ofNat_lt (by omega)
    simp only [List.map_cons, List.map_nil]
    congr 1
    rw [show toAsciiLowercase (Char.ofNat (c.toNat + 32)) =
        Char.ofNat (c.toNat + 32) from by
      unfold toAsciiLowercase
      rw [if_neg (by rw [ht]; omega)]]
    rw [show toAsciiLowercase c = Char.ofNat (c.toNat + 32) from by
      unfold toAsciiLowercase
      rw [if_pos h1]]
  · subst h2; exact absurd hc (by decide)
  · subst h3; exact absurd hc (by decide)
  · simp

theorem toUppercaseFull_ascii {c : Char} (hc : c.toNat < 128) :
    ∀ y ∈ toUppercaseFull c, y.toNat < 128 := by
  unfold toUppercaseFull
  split_ifs with h1 h2 h3 h4 h5
  · intro y hy
    simp only [List.mem_singleton] at hy
    subst hy
    rw [toNat_ofNat_lt (by omega)]
    omega
  · subst h2; exact absurd hc (by decide)
  · subst h3; exact absurd hc (by decide)
  · subst h4; exact absurd hc (by decide)
  · subst h5; exact absurd hc (by decide)
  · intro y hy
    simp only [List.mem_singleton] at hy
    subst hy
    exact hc

theorem toLowercaseFull_ascii {c : Char} (hc : c.toNat < 128) :
    ∀ y ∈ toLowercaseFull c, y.toNat < 128 := by
  unfold toLowercaseFull
  split_ifs with h1 h2 h3
  · intro y hy
    simp only [List.mem_singleton] at hy
    subst hy
    rw [toNat_ofNat_lt (by omega)]
    omega
  · subst h2; exact absurd hc (by decide)
  · subst h3; exact absurd hc (by decide)
  · intro y hy
    simp only [List.mem_singleton] at hy
    subst hy
    exact hc

theorem Recased.append_raw {l r : List Char} (h : Recased l r) :
    ∀ m : List Char, Recased (l ++ m) (r ++ m) := by
  intro m
  induction m using List.reverseRecOn with
  | nil => simpa using h
  | append_singleton m c ih =>
    rw [← List.append_assoc, ← List.append_assoc]
    exact Recased.raw _ _ c ih

theorem Recased.ne_nil {l r : List Char} (h : Recased l r) (hne : l ≠ []) :
    r ≠ [] := by
  induction h with
  | nil => exact absurd rfl hne
  | raw l r c h ih => simp
  | up l r c h ih =>
    intro habs
    exact toUppercaseFull_ne_nil c (List.append_eq_nil.mp habs).2
  | low l r c h ih =>
    intro habs
    exact toLowercaseFull_ne_nil c (List.append_eq_nil.mp habs).2

theorem Recased.sepfree {l r : List Char} (h : Recased l r) :
    (∀ x ∈ l, isSep x = false) → ∀ y ∈ r, isSep y = false := by
  induction h with
  | nil => intro _; simp
  | raw l r c h ih =>
    intro hl y hy
    rcases List.mem_append.mp hy with hy | hy
    · exact ih (fun x hx => hl x (by simp [hx])) y hy
    · simp only [List.mem_singleton] at hy
      subst hy
      exact hl _ (by simp)
  | up l r c h ih =>
    intro hl y hy
    rcases List.mem_append.mp hy with hy | hy
    · exact ih (fun x hx => hl x (by simp [hx])) y hy
    · exact toUppercaseFull_sepfree (hl c (by simp)) y hy
  | low l r c h ih =>
    intro hl y hy
    rcases List.mem_append.mp hy with hy | hy
    · exact ih (fun x hx => hl x (by simp [hx])) y hy
    · exact toLowercaseFull_sepfree (hl c (by simp)) y hy

theorem Recased.ascii_map {l r : List Char} (h : Recased l r)
    (hl : ∀ x ∈ l, x.toNat < 128) :
    r.map toAsciiLowercase = l.map toAsciiLowercase := by
  induction h with
  | nil => rfl
  | raw l r c h ih =>
    rw [List.map_append, List.map_append, ih (fun x hx => hl x (by simp [hx]))]
  | up l r c h ih =>
    rw [List.map_append, List.map_append, ih (fun x hx => hl x (by simp [hx])),
      toUppercaseFull_ascii_map (hl c (by simp))]
    simp
  | low l r c h ih =>
    rw [List.map_append, List.map_append, ih (fun x hx => hl x (by simp [hx])),
      toLowercaseFull_ascii_map (hl c (by simp))]
    simp

theorem aclGo_spec (text : List Char) :
    ∀ (rest : List Char) (k j : Nat) (cas : List Char) (exh : Bool)
      (target : CharCase) (result : List Char),
      rest = text.drop k → k ≤ text.length → j ≤ k →
      Recased (text.take j) result →
      ((rest = [] →
          aclGo text rest cas exh target (utf8Len (text.take k))
            (utf8Len (text.take j)) result = result) ∧
        ((∃ u cl, text = u ++ [cl] ∧ lenUtf8 cl = 1) → k < text.length →
          Recased text
            (aclGo text rest cas exh target (utf8Len (text.take k))
              (utf8Len (text.take j)) result))) := by
  intro rest
  induction rest with
  | nil =>
    intro k j cas exh target result hk hkle hjk hrec
    constructor
    · intro _
      rfl
    · intro _ hklt
      exfalso
      have hlen := congrArg List.length hk
      simp [List.length_drop] at hlen
      omega
  | cons tc rest' ih =>
    intro k j cas exh target result hk hkle hjk hrec
    have hklt : k < text.length := by
      by_contra hge
      rw [List.drop_eq_nil_of_le (by omega)] at hk
      cases hk
    have htext : text = text.take k ++ tc :: rest' := by
      conv_lhs => rw [← List.take_append_drop k text]
      rw [← hk]
    have hrest' : rest' = text.drop (k + 1) := by
      have h2 := congrArg (List.drop 1) hk
      simp only [List.drop_drop] at h2
      simpa [Nat.add_comm] using h2
    have htake1 : text.take (k + 1) = text.take k ++ [tc] := by
      conv_lhs => rw [htext]
      rw [List.take_append_eq_append_take]
      have hlt : (text.take k).length = k := by
        rw [List.length_take]
        omega
      rw [List.take_of_length_le (by omega), hlt]
      simp
    have hB1 : utf8Len (text.take (k + 1)) = utf8Len (text.take k) + lenUtf8 tc := by
      rw [htake1, utf8Len_append]
      simp [utf8Len]
    have hdropj : dropBytes text (utf8Len (text.take j)) = text.drop j := by
      have h3 := dropBytes_append (text.take j) (text.drop j)
      rw [List.take_append_drop] at h3
      exact h3
    obtain ⟨m, hm⟩ : ∃ m, text.take k = text.take j ++ m := by
      refine ⟨(text.take k).drop j, ?_⟩
      conv_lhs => rw [← List.take_append_drop j (text.take k)]
      rw [List.take_take, Nat.min_eq_left hjk]
    have hmdrop : (text.take k).drop j = m := by
      rw [hm, List.drop_append_eq_append_drop]
      have hlj : (text.take j).length = j := by
        rw [List.length_take]
        omega
      rw [List.drop_eq_nil_of_le (by omega), hlj, Nat.sub_self, List.drop_zero,
        List.nil_append]
    have hulen : utf8Len (text.take k) = utf8Len (text.take j) + utf8Len m := by
      rw [hm, utf8Len_append]
    have hpend :
        (if utf8Len (text.take j) < utf8Len (text.take k) then
            takeBytes (dropBytes text (utf8Len (text.take j)))
              (utf8Len (text.take k) - utf8Len (text.take j))
          else []) = m := by
      by_cases hje : utf8Len (text.take j) < utf8Len (text.take k)
      · rw [if_pos hje, hdropj]
        have hdj : text.drop j = m ++ text.drop k := by
          conv_lhs => rw [← List.take_append_drop k text]
          rw [List.drop_append_eq_append_drop]
          have hlt : (text.take k).length = k := by
            rw [List.length_take]
            omega
          rw [hlt, hmdrop, Nat.sub_eq_zero_of_le hjk, List.drop_zero]
        rw [hdj, show utf8Len (text.take k) - utf8Len (text.take j) = utf8Len m from by
          omega]
        exact takeBytes_append _ _
      · rw [if_neg hje]
        have h0 : utf8Len m = 0 := by omega
        rw [utf8Len_eq_zero h0]
    have hrecm : Recased (text.take j ++ m) (result ++ m) := hrec.append_raw m
    simp only [aclGo]
    rcases hn : aclNext cas exh target with ⟨cas', exh', target'⟩
    dsimp only
    have hstep : ∀ (tg' : CharCase) (ex' : Bool) (cs' : List Char) (res' : List Char),
        Recased (text.take (k + 1)) res' →
        ((tc :: rest' = [] →
            aclGo text rest' cs' ex' tg' (utf8Len (text.take k) + lenUtf8 tc)
              (utf8Len (text.take k) + lenUtf8 tc) res' = result) ∧
          ((∃ u cl, text = u ++ [cl] ∧ lenUtf8 cl = 1) → k < text.length →
            Recased text
              (aclGo text rest' cs' ex' tg' (utf8Len (text.take k) + lenUtf8 tc)
                (utf8Len (text.take k) + lenUtf8 tc) res'))) := by
      intro tg' ex' cs' res' hres'
      constructor
      · intro habs
        exact absurd habs (by simp)
      · intro hlast hklt2
        rw [show utf8Len (text.take k) + lenUtf8 tc = utf8Len (text.take (k + 1)) from
          hB1.symm]
        have IH := ih (k + 1) (k + 1) cs' ex' tg' res' hrest' (by omega)
          (Nat.le_refl _) hres'
        by_cases hk1 : k + 1 < text.length
        · exact IH.2 hlast hk1
        · rw [IH.1 (by rw [hrest']; exact List.drop_eq_nil_of_le (by omega))]
          have hres2 := hres'
          rw [List.take_of_length_le (by omega)] at hres2
          exact hres2
    by_cases hedit : CharCase.fromChar tc ≠ target' ∧ target' ≠ CharCase.Eh
    · rw [if_pos hedit]
      rw [hpend]
      cases target' with
      | Eh => exact absurd rfl hedit.2
      | Upper =>
        dsimp only
        exact hstep _ _ _ _ (by rw [htake1, hm]; exact Recased.up _ _ tc hrecm)
      | Lower =>
        dsimp only
        exact hstep _ _ _ _ (by rw [htake1, hm]; exact Recased.low _ _ tc hrecm)
    · rw [if_neg hedit]
      by_cases hflush : utf8Len (text.take k) + 1 = utf8Len text
      · rw [if_pos hflush]
        have h7 : utf8Len text = utf8Len (text.take k) + (lenUtf8 tc + utf8Len rest') := by
          conv_lhs => rw [htext]
          rw [utf8Len_append]
          simp [utf8Len]
        have h6 : lenUtf8 tc = 1 ∧ utf8Len rest' = 0 := by
          have := lenUtf8_pos tc
          omega
        have hrestnil : rest' = [] := utf8Len_eq_zero h6.2
        have h8 : utf8Len text = utf8Len (text.take j) + utf8Len (text.drop j) := by
          conv_lhs => rw [← List.take_append_drop j text]
          rw [utf8Len_append]
        rw [hdropj]
        rw [show utf8Len (text.take k) + 1 - utf8Len (text.take j) =
            utf8Len (text.drop j) from by omega]
        rw [takeBytes_utf8Len]
        subst hrestnil
        constructor
        · intro habs
          exact absurd habs (by simp)
        · intro _ _
          simp only [aclGo]
          nth_rewrite 1 [← List.take_append_drop j text]
          exact hrec.append_raw _
      · rw [if_neg hflush]
        constructor
        · intro habs
          exact absurd habs (by simp)
        · intro hlast hklt2
          rw [show utf8Len (text.take k) + lenUtf8 tc = utf8Len (text.take (k + 1)) from
            hB1.symm]
          have IH := ih (k + 1) j cas' exh' target' result hrest' (by omega)
            (by omega) hrec
          by_cases hk1 : k + 1 < text.length
          · exact IH.2 hlast hk1
          · exfalso
            have hrestnil : rest' = [] := by
              rw [hrest']
              exact List.drop_eq_nil_of_le (by omega)
            obtain ⟨u, cl, hu, hcl1⟩ := hlast
            have htext2 : text = text.take k ++ [tc] := by
              conv_lhs => rw [htext]
              rw [hrestnil]
            have htccl : tc = cl := by
              have h9 : (text.take k ++ [tc]).getLast? = (u ++ [cl]).getLast? := by
                rw [← htext2, ← hu]
              simp only [List.getLast?_concat] at h9
              exact Option.some.inj h9
            have h10 : utf8Len text = utf8Len (text.take k) + 1 := by
              conv_lhs => rw [htext2]
              rw [utf8Len_append]
              simp [utf8Len, htccl, hcl1]
            exact hflush (by omega)

theorem apply_casing_like_recased (text casing : List Char)
    (hlast : ∃ u cl, text = u ++ [cl] ∧ lenUtf8 cl = 1) :
    Recased text (apply_casing_like text casing) := by
  have hne : text ≠ [] := by
    obtain ⟨u, cl, hu, -⟩ := hlast
    rw [hu]
    simp
  have h := (aclGo_spec text text 0 0 casing false CharCase.Eh []
    (by simp) (by simp) (by simp) (by simp [Recased.nil])).2 hlast
      (by cases text with
        | nil => exact absurd rfl hne
        | cons a b => simp)
  simpa [apply_casing_like, utf8Len] using h

/-! Shape of `translate_word`'s output on genuine words. -/

theorem translate_word_output (c : Char) (t : List Char)
    (hsf : ∀ x ∈ c :: t, isSep x = false) :
    ∃ o, translate_word (c :: t) = some o ∧ o ≠ [] ∧ ∀ y ∈ o, isSep y = false := by
  unfold translate_word
  by_cases hv : is_vowel c
  · simp only [starts_voweled, hv]
    refine ⟨_, rfl, by simp [translate_word_starts_voweled], ?_⟩
    intro y hy
    unfold translate_word_starts_voweled at hy
    rcases List.mem_append.mp hy with hy | hy
    · exact hsf y hy
    · simp only [List.mem_cons, List.not_mem_nil, or_false] at hy
      rcases hy with rfl | rfl | rfl <;> decide
  · have hvf : is_vowel c = false := by simpa using hv
    simp only [starts_voweled, hvf]
    obtain ⟨k, hk, -⟩ := byte_idx_spec (c :: t)
    rw [hk]
    have hlast : ∃ u cl,
        dropBytes (c :: t) k ++ takeBytes (c :: t) k ++ ['a', 'y'] = u ++ [cl] ∧
          lenUtf8 cl = 1 := by
      refine ⟨dropBytes (c :: t) k ++ takeBytes (c :: t) k ++ ['a'], 'y', ?_, by decide⟩
      simp
    have hrec := apply_casing_like_recased _ (c :: t) hlast
    refine ⟨_, rfl, hrec.ne_nil (by simp), ?_⟩
    apply hrec.sepfree
    intro x hx
    rcases List.mem_append.mp hx with hx | hx
    · rcases List.mem_append.mp hx with hx | hx
      · refine hsf x ?_
        rw [← takeBytes_append_dropBytes (c :: t) k]
        exact List.mem_append.mpr (Or.inr hx)
      · refine hsf x ?_
        rw [← takeBytes_append_dropBytes (c :: t) k]
        exact List.mem_append.mpr (Or.inl hx)
    · simp only [List.mem_cons, List.not_mem_nil, or_false] at hx
      rcases hx with rfl | rfl <;> decide

theorem translate_word_ascii_spec (c : Char) (t : List Char)
    (hascii : ∀ x ∈ c :: t, x.toNat < 128) :
    ∃ o, translate_word (c :: t) = some o ∧
      o.length = (c :: t).length + (if is_vowel c then 3 else 2) ∧
      List.Perm (o.map toAsciiLowercase)
        (((c :: t).map toAsciiLowercase) ++
          (if is_vowel c then ['h', 'a', 'y'] else ['a', 'y'])) := by
  unfold translate_word
  by_cases hv : is_vowel c
  · simp only [starts_voweled, hv, if_true]
    refine ⟨_, rfl, by simp [translate_word_starts_voweled], ?_⟩
    rw [show translate_word_starts_voweled (c :: t) = (c :: t) ++ ['h', 'a', 'y'] from
      rfl]
    rw [List.map_append,
      show (['h', 'a', 'y'] : List Char).map toAsciiLowercase = ['h', 'a', 'y'] from by
        decide]
  · have hvf : is_vowel c = false := by simpa using hv
    simp only [starts_voweled, hvf, if_false]
    obtain ⟨k, hk, -⟩ := byte_idx_spec (c :: t)
    rw [hk]
    have hsplit := takeBytes_append_dropBytes (c :: t) k
    have hlast : ∃ u cl,
        dropBytes (c :: t) k ++ takeBytes (c :: t) k ++ ['a', 'y'] = u ++ [cl] ∧
          lenUtf8 cl = 1 := by
      refine ⟨dropBytes (c :: t) k ++ takeBytes (c :: t) k ++ ['a'], 'y', ?_, by decide⟩
      simp
    have htxt_ascii : ∀ x ∈ dropBytes (c :: t) k ++ takeBytes (c :: t) k ++ ['a', 'y'],
        x.toNat < 128 := by
      intro x hx
      rcases List.mem_append.mp hx with hx | hx
      · rcases List.mem_append.mp hx with hx | hx
        · refine hascii x ?_
          rw [← takeBytes_append_dropBytes (c :: t) k]
          exact List.mem_append.mpr (Or.inr hx)
        · refine hascii x ?_
          rw [← takeBytes_append_dropBytes (c :: t) k]
          exact List.mem_append.mpr (Or.inl hx)
      · simp only [List.mem_cons, List.not_mem_nil, or_false] at hx
        rcases hx with rfl | rfl <;> decide
    have hmap := (apply_casing_like_recased _ (c :: t) hlast).ascii_map htxt_ascii
    refine ⟨_, rfl, ?_, ?_⟩
    · have hlen := congrArg List.length hmap
      simp only [List.length_map] at hlen
      have hlen2 := congrArg List.length hsplit
      simp only [List.length_append, List.length_cons, List.length_nil] at hlen2
      simp only [hvf, Bool.false_eq_true, if_false, List.length_cons]
      rw [hlen]
      simp only [List.length_append, List.length_cons, List.length_nil]
      omega
    · rw [hmap, List.map_append, List.map_append,
        show (['a', 'y'] : List Char).map toAsciiLowercase = ['a', 'y'] from by decide]
      apply List.Perm.append_right
      have hp : List.Perm
          ((dropBytes (c :: t) k).map toAsciiLowercase ++
            (takeBytes (c :: t) k).map toAsciiLowercase)
          ((takeBytes (c :: t) k).map toAsciiLowercase ++
            (dropBytes (c :: t) k).map toAsciiLowercase) :=
        List.perm_append_comm
      refine hp.trans ?_
      rw [← List.map_append, hsplit]

theorem translate_nil : translate ([] : List Char) = some [] := by decide

theorem translate_sep_block (a : List Char) (ha : ∀ x ∈ a, isSep x = true) :
    ∀ b, translate (a ++ b) = (translate b).map (fun r => a ++ r) := by
  induction a with
  | nil =>
    intro b
    simp only [List.nil_append]
    cases translate b <;> simp
  | cons c a ih =>
    intro b
    rw [List.cons_append, translate_sep_cons c _ (ha c (by simp)),
      ih (fun x hx => ha x (by simp [hx])) b]
    cases translate b <;> simp

theorem translate_wordrun_block (w : List Char) (hne : w ≠ [])
    (hsf : ∀ x ∈ w, isSep x = false) (b : List Char)
    (hb : b = [] ∨ ∃ d r, b = d :: r ∧ isSep d = true) :
    translate (w ++ b) =
      (translate_word w).bind (fun tw => (translate b).map (fun r => tw ++ r)) := by
  rcases hb with rfl | ⟨d, r, rfl, hd⟩
  · rw [List.append_nil, translate_wordrun_nil w hne hsf, translate_nil]
    cases translate_word w <;> simp
  · rw [translate_wordrun_cons w d r hne hsf hd, translate_sep_cons d r hd]
    cases translate_word w with
    | none => rfl
    | some tw =>
      cases translate r <;> simp

theorem translate_runs (s : List Char) :
    ∃ out, translate s = some out ∧ List.Forall₂ spanRel (runs s) (runs out) := by
  suffices h : ∀ (n : Nat) (u : List Char), u.length ≤ n →
      ∃ out, translate u = some out ∧ List.Forall₂ spanRel (runs u) (runs out) by
    exact h s.length s (Nat.le_refl _)
  intro n
  induction n with
  | zero =>
    intro u hu
    have hnil : u = [] := List.eq_nil_of_length_eq_zero (Nat.le_zero.mp hu)
    subst hnil
    exact ⟨[], translate_nil, by exact List.Forall₂.nil⟩
  | succ n ih =>
    intro u hu
    match u with
    | [] => exact ⟨[], translate_nil, by exact List.Forall₂.nil⟩
    | c :: t =>
      have hlen : t.length ≤ n := by
        simp only [List.length_cons] at hu
        omega
      have hdecomp : c :: t =
          (c :: t.takeWhile (fun d => isSep d == isSep c)) ++
            t.dropWhile (fun d => isSep d == isSep c) := by
        rw [List.cons_append, List.takeWhile_append_dropWhile]
      have hlenB : (t.dropWhile (fun d => isSep d == isSep c)).length ≤ n :=
        Nat.le_trans (length_dropWhile_le _ t) hlen
      obtain ⟨ob, hob, hF⟩ := ih (t.dropWhile (fun d => isSep d == isSep c)) hlenB
      have hrun := runs_cons c t
      have hobhead : t.dropWhile (fun d => isSep d == isSep c) = [] → ob = [] := by
        intro h0
        rw [h0, translate_nil] at hob
        exact (Option.some.inj hob).symm
      have hobcons : ∀ d B', t.dropWhile (fun d => isSep d == isSep c) = d :: B' →
          ob = [] ∨ ∃ e ob', ob = e :: ob' ∧ isSep e = isSep d := by
        intro d B' hBe
        rw [hBe, runs_cons] at hF
        obtain ⟨y, l', h1, h2, hro⟩ := List.forall₂_cons_left_iff.mp hF
        cases hobe : ob with
        | nil =>
          exact Or.inl rfl
        | cons e ob' =>
          refine Or.inr ⟨e, ob', rfl, ?_⟩
          rw [hobe, runs_cons] at hro
          have h3 : isSep e = y.1 := congrArg Prod.fst ((List.cons.inj hro).1)
          have h4 : isSep d = y.1 := h1.1
          rw [h3, h4]
      cases hf : isSep c with
      | true =>
        have hsat : ∀ x ∈ c :: t.takeWhile (fun d => isSep d == isSep c),
            isSep x = true := by
          intro x hx
          rcases List.mem_cons.mp hx with rfl | hx
          · exact hf
          · rw [mem_takeWhile_sep x hx, hf]
        have htr : translate (c :: t) = some
            ((c :: t.takeWhile (fun d => isSep d == isSep c)) ++ ob) := by
          conv_lhs => rw [hdecomp]
          rw [translate_sep_block _ hsat _, hob]
          rfl
        refine ⟨_, htr, ?_⟩
        have hruns_out : runs ((c :: t.takeWhile (fun d => isSep d == isSep c)) ++ ob) =
            (true, c :: t.takeWhile (fun d => isSep d == isSep c)) :: runs ob := by
          apply runs_append_uniform (by simp) hsat
          cases hBe : t.dropWhile (fun d => isSep d == isSep c) with
          | nil => exact Or.inl (hobhead hBe)
          | cons d B' =>
            have hd : isSep d = false := by
              have := dropWhile_head_beq hBe
              rw [hf] at this
              simpa using this
            rcases hobcons d B' hBe with h0 | ⟨e, ob', rfl, he⟩
            · exact Or.inl h0
            · refine Or.inr ⟨e, ob', rfl, ?_⟩
              rw [he, hd]
              rfl
        rw [hruns_out, hrun]
        refine List.Forall₂.cons
          ⟨hf, fun _ => rfl, fun h => Bool.noConfusion (hf.symm.trans h)⟩ hF
      | false =>
        have hsf : ∀ x ∈ c :: t.takeWhile (fun d => isSep d == isSep c),
            isSep x = false := by
          intro x hx
          rcases List.mem_cons.mp hx with rfl | hx
          · exact hf
          · rw [mem_takeWhile_sep x hx, hf]
        have hbsep : t.dropWhile (fun d => isSep d == isSep c) = [] ∨
            ∃ d r, t.dropWhile (fun d => isSep d == isSep c) = d :: r ∧
              isSep d = true := by
          cases hBe : t.dropWhile (fun d => isSep d == isSep c) with
          | nil => exact Or.inl rfl
          | cons d B' =>
            refine Or.inr ⟨d, B', rfl, ?_⟩
            have := dropWhile_head_beq hBe
            rw [hf] at this
            simpa using this
        obtain ⟨orw, horw, hone, hofree⟩ := translate_word_output c
          (t.takeWhile (fun d => isSep d == isSep c)) hsf
        have htr : translate (c :: t) = some (orw ++ ob) := by
          conv_lhs => rw [hdecomp]
          rw [translate_wordrun_block _ (by simp) hsf _ hbsep, horw, hob]
          rfl
        refine ⟨_, htr, ?_⟩
        have hruns_out : runs (orw ++ ob) = (false, orw) :: runs ob := by
          apply runs_append_uniform hone hofree
          cases hBe : t.dropWhile (fun d => isSep d == isSep c) with
          | nil => exact Or.inl (hobhead hBe)
          | cons d B' =>
            have hd : isSep d = true := by
              have := dropWhile_head_beq hBe
              rw [hf] at this
              simpa using this
            rcases hobcons d B' hBe with h0 | ⟨e, ob', rfl, he⟩
            · exact Or.inl h0
            · refine Or.inr ⟨e, ob', rfl, ?_⟩
              rw [he, hd]
              rfl
        rw [hruns_out, hrun]
        refine List.Forall₂.cons
          ⟨hf, fun h => Bool.noConfusion (hf.symm.trans h), fun _ => horw⟩ hF

theorem quCheck_slice (w : List Char) (h : consonantScan w < utf8Len w) :
    (∃ m, consonantScan w + 1 = utf8Len (w.take m)) ∧
    takeBytes w (consonantScan w + 1) ≠ [] := by
  obtain ⟨d, dr, hdecomp, hd, hd1⟩ := consonantScan_split w h
  set A := w.takeWhile (fun c => !(is_vowel c)) with hA
  have hscan : consonantScan w = utf8Len A := by
    rw [consonantScan_eq]
  have htb : takeBytes w (consonantScan w + 1) = A ++ [d] := by
    rw [hscan, ← hd1, hdecomp]
    rw [show A ++ d :: dr = (A ++ [d]) ++ dr from by simp]
    have h2 := takeBytes_append (A ++ [d]) dr
    rw [utf8Len_append] at h2
    simpa [utf8Len] using h2
  constructor
  · refine ⟨A.length + 1, ?_⟩
    have htake : w.take (A.length + 1) = A ++ [d] := by
      rw [hdecomp, show A ++ d :: dr = (A ++ [d]) ++ dr from by simp]
      have h3 := List.take_left (A ++ [d]) dr
      simpa using h3
    rw [htake, hscan, utf8Len_append]
    simp [utf8Len, hd1]
  · rw [htb]
    simp

/-! The claims. -/

/-- Claim C1: contrary to the claim, the qu extension is not applied wherever
the q occurs.  The source compares the first two codepoints of the word, not
the last codepoint of the consonant run with its successor, so for "squish"
(consonant run "sq" ending in q, followed by u) the cut stays at byte 2 and
the result is "uishsqay" rather than the claimed "ishsquay". -/
theorem translate_word_squish_eval :
    byte_idx_starting_consonants ['s', 'q', 'u', 'i', 's', 'h'] = some 2 ∧
    translate_word ['s', 'q', 'u', 'i', 's', 'h'] =
      some ['u', 'i', 's', 'h', 's', 'q', 'a', 'y'] ∧
    translate_word ['s', 'q', 'u', 'i', 's', 'h'] ≠
      some ['i', 's', 'h', 's', 'q', 'u', 'a', 'y'] := by
  refine ⟨by decide, by decide, by decide⟩

/-- Claim C2, counterexample: for the word "ßA" the output of `translate_word`
is "aSSAY", which is not a permutation of the input plus either literal
suffix: ß expands to SS under the casing transfer, so the multiset of
codepoints is not preserved (and the codepoint count grows by 3 although the
suffix is "ay"). -/
theorem translate_word_eszett_counterexample :
    translate_word ['ß', 'A'] = some ['a', 'S', 'S', 'A', 'Y'] ∧
    ¬ (List.Perm ['a', 'S', 'S', 'A', 'Y'] (['ß', 'A'] ++ ['a', 'y']) ∨
       List.Perm ['a', 'S', 'S', 'A', 'Y'] (['ß', 'A'] ++ ['h', 'a', 'y'])) := by
  refine ⟨by decide, by decide⟩

/-- Claim C2, amended: for every non-empty ASCII word free of separator
codepoints, the codepoint count of `translate_word` grows by exactly 2
(consonant-initial, suffix "ay") or 3 (vowel-initial, suffix "hay"), and the
multiset of codepoints up to ASCII case equals that of the word plus the
literal suffix letters: nothing is dropped or duplicated. -/
theorem translate_word_ascii_len_perm (c : Char) (t : List Char)
    (hascii : ∀ x ∈ c :: t, x.toNat < 128)
    (hsep : ∀ x ∈ c :: t, isSep x = false) :
    ∃ o, translate_word (c :: t) = some o ∧
      o.length = (c :: t).length + (if is_vowel c then 3 else 2) ∧
      List.Perm (o.map toAsciiLowercase)
        (((c :: t).map toAsciiLowercase) ++
          (if is_vowel c then ['h', 'a', 'y'] else ['a', 'y'])) :=
  translate_word_ascii_spec c t hascii

theorem translate_word_ascii_len_perm_witness :
    (∀ x ∈ 'f' :: ['i', 'r', 's', 't'], x.toNat < 128) ∧
    (∀ x ∈ 'f' :: ['i', 'r', 's', 't'], isSep x = false) ∧
    (∃ o, translate_word ('f' :: ['i', 'r', 's', 't']) = some o ∧
      o.length = ('f' :: ['i', 'r', 's', 't']).length + (if is_vowel 'f' then 3 else 2) ∧
      List.Perm (o.map toAsciiLowercase)
        ((('f' :: ['i', 'r', 's', 't']).map toAsciiLowercase) ++
          (if is_vowel 'f' then ['h', 'a', 'y'] else ['a', 'y']))) :=
  ⟨by decide, by decide,
    translate_word_ascii_len_perm 'f' ['i', 'r', 's', 't'] (by decide) (by decide)⟩

/-- Claim C3: contrary to the claim, `apply_casing_like text text` is not the
identity on every expansion-free string.  The final flush of the loop fires
only when the last codepoint starts at byte `len - 1`, i.e. is one byte wide;
for the two-byte lowercase scalar é (which needs no edit when re-cased by
itself) nothing is ever pushed and the whole content is dropped, contradicting
the function's own documentation that content is preserved. -/
theorem apply_casing_like_identity_drops_trailing_multibyte :
    apply_casing_like ['é'] ['é'] = [] ∧
    CharCase.fromChar 'é' = CharCase.Lower ∧
    (['é'] : List Char) ≠ [] := by
  refine ⟨by decide, by decide, by decide⟩

/-- Claim C4: contrary to the empty-`casing_of` conjunct of the claim, the
output is not always `text` unchanged: with an empty casing source every
position is indeed treated as indeterminate and never edited, but the final
flush misses a trailing multi-byte codepoint, so `apply_casing_like "é" ""`
returns the empty string instead of "é". -/
theorem apply_casing_like_empty_casing_drops_trailing_multibyte :
    apply_casing_like ['é'] [] = [] ∧
    apply_casing_like ['H', 'e', 'l', 'l', 'o'] [] = ['H', 'e', 'l', 'l', 'o'] ∧
    (['é'] : List Char) ≠ [] := by
  refine ⟨by decide, by decide, by decide⟩

/-- Claim C5: for every non-empty separator-free word whose first codepoint is
an ASCII vowel, `translate_word` returns exactly the original word with the
lowercase suffix "hay" appended; the word's casing is untouched and the
suffix undergoes no casing transfer. -/
theorem translate_word_vowel_initial (c : Char) (t : List Char)
    (hv : is_vowel c = true) (hsep : ∀ x ∈ c :: t, isSep x = false) :
    translate_word (c :: t) = some ((c :: t) ++ ['h', 'a', 'y']) := by
  unfold translate_word
  simp only [starts_voweled, hv]
  rfl

theorem translate_word_vowel_initial_witness :
    is_vowel 'a' = true ∧
    (∀ x ∈ 'a' :: ['p', 'p', 'l', 'e'], isSep x = false) ∧
    translate_word ('a' :: ['p', 'p', 'l', 'e']) =
      some (('a' :: ['p', 'p', 'l', 'e']) ++ ['h', 'a', 'y']) :=
  ⟨by decide, by decide,
    translate_word_vowel_initial 'a' ['p', 'p', 'l', 'e'] (by decide) (by decide)⟩

/-- Claim C6: for every input string, `translate` succeeds and its output has
the same alternating word/separator span structure as the input: spans
correspond one to one with equal separator flags, separator spans are copied
verbatim, and word spans are exactly the `translate_word` images of the input
word spans. -/
theorem translate_preserves_span_structure (s : List Char) :
    ∃ out, translate s = some out ∧ List.Forall₂ spanRel (runs s) (runs out) :=
  translate_runs s

/-- Claim C7: on a lone non-empty word containing no whitespace and no ASCII
punctuation, the whole-text translator agrees exactly with the word
transformer. -/
theorem translate_single_word (w : List Char) (hne : w ≠ [])
    (hsep : ∀ x ∈ w, isSep x = false) :
    translate w = translate_word w :=
  translate_wordrun_nil w hne hsep

theorem translate_single_word_witness :
    (['f', 'i', 'r', 's', 't'] : List Char) ≠ [] ∧
    (∀ x ∈ (['f', 'i', 'r', 's', 't'] : List Char), isSep x = false) ∧
    translate ['f', 'i', 'r', 's', 't'] = translate_word ['f', 'i', 'r', 's', 't'] :=
  ⟨by decide, by decide, translate_single_word ['f', 'i', 'r', 's', 't']
    (by decide) (by decide)⟩

/-- Claim C8: `translate` is total: on every input it returns a result (the
panics modelled by `none` are unreachable, in particular zero-length spans
are never forwarded to `translate_word`), and on the empty string it returns
the empty string. -/
theorem translate_total :
    (∀ s : List Char, ∃ out, translate s = some out) ∧
    translate ([] : List Char) = some [] := by
  constructor
  · intro s
    obtain ⟨out, h1, -⟩ := translate_runs s
    exact ⟨out, h1⟩
  · exact translate_nil

/-- Claim C9: the documented example sentence translates exactly as claimed,
with the comma, spaces and question mark preserved in place. -/
theorem translate_easy_sentence :
    translate
      ['T', 'h', 'i', 's', ' ', 'i', 's', ' ', 'a', 'l', 'l', ' ', 'q', 'u', 'i',
       't', 'e', ' ', 'e', 'a', 's', 'y', ',', ' ', 'i', 's', ' ', 'i', 't', ' ',
       'n', 'o', 't', '?'] =
    some ['I', 's', 't', 'h', 'a', 'y', ' ', 'i', 's', 'h', 'a', 'y', ' ', 'a',
       'l', 'l', 'h', 'a', 'y', ' ', 'i', 't', 'e', 'q', 'u', 'a', 'y', ' ', 'e',
       'a', 's', 'y', 'h', 'a', 'y', ',', ' ', 'i', 's', 'h', 'a', 'y', ' ', 'i',
       't', 'h', 'a', 'y', ' ', 'o', 't', 'n', 'a', 'y', '?'] := by
  decide

/-- Claim C10: on every non-empty word, including words with multi-byte
codepoints, `translate_word` never panics: it always returns a result, the
byte index produced by `byte_idx_starting_consonants` is always defined and
falls on a character boundary, and when the consonant scan stops before the
end of the word the extended index `cut + 1` is also a boundary (the scan
only stops at a one-byte ASCII vowel) and the sliced prefix handed to the
two unwraps is non-empty. -/
theorem translate_word_no_failure (c : Char) (t : List Char) :
    (∃ r, translate_word (c :: t) = some r) ∧
    (∃ k, byte_idx_starting_consonants (c :: t) = some k ∧
      ∃ m, k = utf8Len ((c :: t).take m)) ∧
    (consonantScan (c :: t) < utf8Len (c :: t) →
      (∃ m, consonantScan (c :: t) + 1 = utf8Len ((c :: t).take m)) ∧
      takeBytes (c :: t) (consonantScan (c :: t) + 1) ≠ []) := by
  refine ⟨translate_word_some c t, ?_, ?_⟩
  · obtain ⟨k, hk, hb⟩ := byte_idx_spec (c :: t)
    exact ⟨k, hk, hb⟩
  · intro h
    exact quCheck_slice (c :: t) h

theorem translate_word_no_failure_witness :
    (∃ r, translate_word ['q', 'é'] = some r) ∧
    (∃ k, byte_idx_starting_consonants ['q', 'é'] = some k ∧
      ∃ m, k = utf8Len (['q', 'é'].take m)) ∧
    (consonantScan ['q', 'u'] < utf8Len ['q', 'u'] ∧
      (∃ m, consonantScan ['q', 'u'] + 1 = utf8Len (['q', 'u'].take m)) ∧
      takeBytes ['q', 'u'] (consonantScan ['q', 'u'] + 1) ≠ []) := by
  have h1 := translate_word_no_failure 'q' ['é']
  have h2 := translate_word_no_failure 'q' ['u']
  exact ⟨h1.1, h1.2.1, by decide, (h2.2.2 (by decide)).1, (h2.2.2 (by decide)).2⟩

end PigLatin
